import Mathlib

/-!
# NuBLS: verification of the key algebra and its Python binding layer

This development embeds the pyO3 binding layer `src/pynubls/src/keys.rs` of the
NuBLS threshold/proxy BLS signature library, together with a model of the
`nubls` core crate it delegates to (the core crate itself is not part of the
sources at hand, so its operations are modelled from the specification; each
such definition says so in its doc comment).

Modelling choices:
* The curve-arithmetic provider is an out-of-scope collaborator supplying a
  prime-order scalar field, groups G1/G2 with a bilinear pairing and fixed-width
  compressed encodings.  We work in the exponent representation of a generic
  bilinear group of prime order `p`: group elements are their discrete
  logarithms in `ZMod p`, both generators are `1`, and the pairing is
  multiplication of exponents.
* Byte buffers are `List ℕ` of byte values; Rust's `copy_from_slice` panics on
  a length mismatch and `Option::unwrap`/`CtOption::unwrap` panic on the empty
  case, which the binding model records with the `Outcome.aborted` result.
* Randomness (the fresh polynomial coefficients consumed by `split`) is passed
  in explicitly, following the spec's "randomness as an injected capability"
  design note.
-/

set_option maxRecDepth 10000

namespace NuBLS

/-- The error kinds the binding layer can surface to Python, per the spec's
error-handling design (§7). -/
inductive PyExc : Type where
  | invalidSignature
  | malformedInput
  | notASigningKey
  | invalidThresholdParameters
  | insufficientShares
deriving DecidableEq, Repr

/-- Result of a call into the binding layer: a Python-level value, a raised
typed Python exception, or a Rust panic aborting the process. -/
inductive Outcome (α : Type) : Type where
  | ok (a : α)
  | raised (e : PyExc)
  | aborted
deriving DecidableEq, Repr

/-- `VerificationResult` of the `nubls` core, as matched on by
`PublicKey::verify` in `keys.rs` (lines 116-121). -/
inductive VerificationResult : Type where
  | valid
  | invalid
deriving DecidableEq, Repr

/-- A `nubls` private key: tagged union of a full key (one scalar) and a
threshold fragment (scalar together with its evaluation index), per the spec's
data model (§3). -/
inductive PrivateKey (p : ℕ) : Type where
  | full (s : ZMod p)
  | fragment (x y : ZMod p)
deriving DecidableEq

/-- Exponent representation of a G1 point (public keys). -/
abbrev G1 (p : ℕ) := ZMod p

/-- Exponent representation of a G2 point (messages and signatures). -/
abbrev G2 (p : ℕ) := ZMod p

/-- Exponent representation of a GT element. -/
abbrev GT (p : ℕ) := ZMod p

/-- The distinguished G1 generator (exponent 1). -/
def g1Gen (p : ℕ) : G1 p := 1

/-- The bilinear pairing `e : G1 × G2 → GT`; in the exponent representation it
multiplies the exponents. -/
def pairing (p : ℕ) (a : G1 p) (b : G2 p) : GT p := a * b

/-- The scalar carried by a key (the fragment's share value for fragments). -/
def scalarOf (p : ℕ) : PrivateKey p → ZMod p
  | .full s => s
  | .fragment _ y => y

/-- `PrivateKey::is_fragment` of the `nubls` core: the capability query
distinguishing the two variants. -/
def isFragment (p : ℕ) : PrivateKey p → Bool
  | .full _ => false
  | .fragment _ _ => true

/-- Modelled from the spec: `nubls` `PrivateKey::public_key` (not under the
sources at hand) is scalar multiplication of the G1 generator (§4.1).  Its
call-site type in `keys.rs` lines 30-34 shows the core returns a bare key (no
`Result`), so the multiplication applies to whichever scalar the key carries:
the interface has no error channel for the spec's fragment contract
violation. -/
def publicKeyCore (p : ℕ) (k : PrivateKey p) : G1 p :=
  scalarOf p k * g1Gen p

/-- Modelled from the spec: `nubls` `PrivateKey::sign` (not under the sources
at hand) returns `s · message` (§4.1).  As with `public_key`, its call-site
type in `keys.rs` lines 37-43 shows an infallible `&G2Affine -> Signature`, so
the scalar multiplication applies to whichever scalar the key carries and a
fragment cannot fail. -/
def signCore (p : ℕ) (k : PrivateKey p) (message : G2 p) : G2 p :=
  scalarOf p k * message

/-- Modelled from the spec: `nubls` `PublicKey::verify` (not under the sources
at hand) checks the pairing equality `e(G1_generator, signature) ==
e(publicKey, message)` (§4.1). -/
def verifyCore (p : ℕ) (pk : G1 p) (message sig : G2 p) : VerificationResult :=
  if pairing p (g1Gen p) sig = pairing p pk message then .valid else .invalid

/-- Scalar-field inversion as the provider implements it: a Fermat power chain
(`bls12_381`'s constant-time `Scalar::invert` raises to `p - 2`). -/
def zinv (p : ℕ) (a : ZMod p) : ZMod p := a ^ (p - 2)

/-- Modelled from the spec: `nubls` `PrivateKey::resigning_key` (not under the
sources at hand) derives the transformation key from Alice's scalar and the
destination public point; in the exponent representation the key is the
destination point scaled by the inverse of Alice's scalar, the derivation that
makes `resign` move a signature `a·m` to `P·m` (§4.3). -/
def resigningKeyCore (p : ℕ) (k : PrivateKey p) (destPub : G1 p) : PrivateKey p :=
  .full (destPub * zinv p (scalarOf p k))

/-- Modelled from the spec: `nubls` `PrivateKey::designated_key` (not under the
sources at hand) derives the private half of the designated key pair from the
destination holder's scalar and the source public point (§4.3); in the exponent
representation it is the shared Diffie-Hellman point. -/
def designatedKeyCore (p : ℕ) (k : PrivateKey p) (srcPub : G1 p) : PrivateKey p :=
  .full (scalarOf p k * srcPub)

/-- Modelled from the spec: `nubls` `PrivateKey::resign` (not under the sources
at hand) scales the signature by the re-signing key's scalar; its Rust type
(`&Signature -> Signature`, visible at the call site in `keys.rs` line 102) is
infallible, so no validity check of the input signature is performed. -/
def resignCore (p : ℕ) (rk : PrivateKey p) (sig : G2 p) : G2 p :=
  scalarOf p rk * sig

/-! ## Threshold secret sharing (nubls core, modelled from the spec §4.2) -/

/-- Horner evaluation of a polynomial given by its coefficient list (constant
term first). -/
def polyEvalL (p : ℕ) (c : List (ZMod p)) (x : ZMod p) : ZMod p :=
  c.foldr (fun a acc => a + x * acc) 0

/-- Modelled from the spec: the share list of `PrivateKey::split` (not under
the sources at hand): the polynomial with constant term `s` and injected
random tail coefficients `coeffs` is evaluated at the `n` distinct non-zero
public indices `1, …, n` (§4.2). -/
def shamirShares (p : ℕ) (s : ZMod p) (coeffs : List (ZMod p)) (n : ℕ) :
    List (ZMod p × ZMod p) :=
  (List.range n).map fun i =>
    (((i + 1 : ℕ) : ZMod p), polyEvalL p (s :: coeffs) ((i + 1 : ℕ) : ZMod p))

/-- Modelled from the spec: `PrivateKey::split` (not under the sources at hand)
wraps each share as a fragment key (§4.2). -/
def splitCore (p : ℕ) (k : PrivateKey p) (coeffs : List (ZMod p)) (n : ℕ) :
    List (PrivateKey p) :=
  (shamirShares p (scalarOf p k) coeffs n).map fun xy => .fragment xy.1 xy.2

/-- The (index, share) pair carried by a key; the spec only defines recovery on
fragments, a full key contributes its scalar at the (never produced) index 0. -/
def pairOf (p : ℕ) : PrivateKey p → ZMod p × ZMod p
  | .full s => (0, s)
  | .fragment x y => (x, y)

/-- Lagrange interpolation at `x = 0` of the given (index, value) pairs. -/
def lagrangeZero (p : ℕ) (S : List (ZMod p × ZMod p)) : ZMod p :=
  ∑ i : Fin S.length,
    (S.get i).2 * ∏ j ∈ Finset.univ.erase i,
      (S.get j).1 * zinv p ((S.get j).1 - (S.get i).1)

/-- Modelled from the spec: `nubls` `PrivateKey::recover` (not under the
sources at hand) "applies Lagrange interpolation at `x = 0` over the supplied
fragments' (index, scalar) pairs" (§4.2).  Its Rust type
(`&[PrivateKey] -> PrivateKey`, visible at the call site in `keys.rs` line 61)
takes no threshold parameter and is infallible, matching the spec's §9 open
question that the threshold is not stored in a fragment. -/
def recoverCore (p : ℕ) (frags : List (PrivateKey p)) : PrivateKey p :=
  .full (lagrangeZero p (frags.map (pairOf p)))

/-- The sharing polynomial as a `Polynomial`, coefficient list given constant
term first; proof-side mirror of `polyEvalL`. -/
noncomputable def listPoly (p : ℕ) (c : List (ZMod p)) : Polynomial (ZMod p) :=
  c.foldr (fun a q => Polynomial.C a + Polynomial.X * q) 0

/-! ## Byte encodings -/

/-- Big-endian interpretation of a byte buffer. -/
def bytesToNat (b : List ℕ) : ℕ :=
  b.foldl (fun acc d => 256 * acc + d) 0

/-- Big-endian encoding of `n` into exactly `w` bytes. -/
def natToBytesBE : ℕ → ℕ → List ℕ
  | 0, _ => []
  | w + 1, n => natToBytesBE w (n / 256) ++ [n % 256]

/-- Modelled from the spec: the provider's compressed-G2 codec (an out-of-scope
collaborator): a fixed 96-byte encoding under which some buffers decode to no
point; in the exponent representation a buffer is valid when its big-endian
value is an exponent. -/
def g2FromCompressed (p : ℕ) (b : List ℕ) : Option (G2 p) :=
  if b.length = 96 ∧ bytesToNat b < p then some ((bytesToNat b : ℕ) : ZMod p) else none

/-- `PrivateKey::to_bytes` (`keys.rs` lines 76-86): a full key serializes its
32-byte scalar, a fragment a 64-byte buffer (scalar plus index, the core
half modelled from the spec's §6 table). -/
def privToBytes (p : ℕ) : PrivateKey p → List ℕ
  | .full s => natToBytesBE 32 s.val
  | .fragment x y => natToBytesBE 32 y.val ++ natToBytesBE 32 x.val

/-- `PublicKey::to_bytes` (`keys.rs` lines 133-135); the core encoding is
modelled from the spec: 48-byte compressed G1 (§6). -/
def pubToBytes (p : ℕ) (pk : G1 p) : List ℕ :=
  natToBytesBE 48 pk.val

/-! ## The binding layer (`src/pynubls/src/keys.rs`) -/

/-- `PrivateKey::sign` of the binding (`keys.rs` lines 37-43): copies the
message buffer into a 96-byte array (`copy_from_slice` panics on any other
length), decompresses it (`.unwrap()` panics on an invalid point) and calls the
core sign. -/
def bindingSign (p : ℕ) (k : PrivateKey p) (message : List ℕ) : Outcome (G2 p) :=
  if message.length = 96 then
    match g2FromCompressed p message with
    | some mpt => .ok (signCore p k mpt)
    | none => .aborted
  else .aborted

/-- `PublicKey::verify` of the binding (`keys.rs` lines 109-122): same message
handling as `sign`, then `Ok(true)` on `VerificationResult::Valid` and a raised
`InvalidSignature` on `Invalid`. -/
def bindingVerify (p : ℕ) (pk : G1 p) (message : List ℕ) (sig : G2 p) : Outcome Bool :=
  if message.length = 96 then
    match g2FromCompressed p message with
    | some mpt =>
      match verifyCore p pk mpt sig with
      | .valid => .ok true
      | .invalid => .raised .invalidSignature
    | none => .aborted
  else .aborted

/-- `PrivateKey::public_key` of the binding (`keys.rs` lines 30-34): wraps the
infallible core call unconditionally in `Ok`. -/
def bindingPublicKey (p : ℕ) (k : PrivateKey p) : Outcome (G1 p) :=
  .ok (publicKeyCore p k)

/-- `PrivateKey::recover` of the binding (`keys.rs` lines 54-63): unwraps the
fragments and wraps the core recovery unconditionally in `Ok`. -/
def bindingRecover (p : ℕ) (frags : List (PrivateKey p)) :
    Outcome (PrivateKey p) :=
  .ok (recoverCore p frags)

/-- `PrivateKey::resign` of the binding (`keys.rs` lines 100-104): wraps the
core transformation unconditionally in `Ok`. -/
def bindingResign (p : ℕ) (rk : PrivateKey p) (sig : G2 p) : Outcome (G2 p) :=
  .ok (resignCore p rk sig)

/-- `PublicKey::from_bytes` of the binding (`keys.rs` lines 124-131): copies
the buffer into a 48-byte array (`copy_from_slice` panics on any other length)
and hands it to the core decoder (modelled from the spec as the provider's
48-byte compressed-G1 codec). -/
def bindingPubFromBytes (p : ℕ) (b : List ℕ) : Outcome (G1 p) :=
  if b.length = 48 then .ok ((bytesToNat b : ℕ) : ZMod p) else .aborted

instance : Fact (Nat.Prime 7) := ⟨by norm_num⟩

/-! ## Supporting lemmas -/

/-- The Fermat power chain computes the field inverse of a non-zero scalar. -/
theorem zinv_eq_inv (p : ℕ) [Fact p.Prime] (a : ZMod p) (ha : a ≠ 0) :
    zinv p a = a⁻¹ := by
  have h2 : p - 2 + 1 = p - 1 := by
    have := (Fact.out : p.Prime).two_le
    omega
  have h1 : a * zinv p a = 1 := by
    rw [zinv, ← pow_succ', h2]
    exact ZMod.pow_card_sub_one_eq_one ha
  exact (inv_eq_of_mul_eq_one_right h1).symm

theorem eval_listPoly (p : ℕ) (c : List (ZMod p)) (x : ZMod p) :
    (listPoly p c).eval x = polyEvalL p c x := by
  induction c with
  | nil => simp [listPoly, polyEvalL]
  | cons a t ih =>
    show (Polynomial.C a + Polynomial.X * listPoly p t).eval x = a + x * polyEvalL p t x
    rw [Polynomial.eval_add, Polynomial.eval_mul, Polynomial.eval_C, Polynomial.eval_X, ih]

theorem coeff_zero_listPoly (p : ℕ) (s : ZMod p) (c : List (ZMod p)) :
    (listPoly p (s :: c)).coeff 0 = s := by
  show (Polynomial.C s + Polynomial.X * listPoly p c).coeff 0 = s
  simp [Polynomial.mul_coeff_zero]

theorem degree_listPoly_lt (p : ℕ) [Fact p.Prime] (c : List (ZMod p)) :
    (listPoly p c).degree < (c.length : ℕ) := by
  induction c with
  | nil =>
    show (0 : Polynomial (ZMod p)).degree < ((0 : ℕ) : WithBot ℕ)
    rw [Polynomial.degree_zero]
    exact_mod_cast WithBot.bot_lt_coe 0
  | cons a t ih =>
    show (Polynomial.C a + Polynomial.X * listPoly p t).degree < ((t.length + 1 : ℕ) : WithBot ℕ)
    refine lt_of_le_of_lt (Polynomial.degree_add_le _ _) (max_lt ?_ ?_)
    · refine lt_of_le_of_lt Polynomial.degree_C_le ?_
      exact_mod_cast Nat.succ_pos t.length
    · by_cases hq : listPoly p t = 0
      · rw [hq, mul_zero, Polynomial.degree_zero]
        exact_mod_cast WithBot.bot_lt_coe _
      · rw [Polynomial.degree_mul, Polynomial.degree_X, Polynomial.degree_eq_natDegree hq]
        have hnd : (listPoly p t).natDegree < t.length := by
          have h := ih
          rw [Polynomial.degree_eq_natDegree hq] at h
          exact_mod_cast h
        have h4 : 1 + (listPoly p t).natDegree < t.length + 1 := by omega
        exact_mod_cast h4

/-- Key interpolation lemma: `lagrangeZero` on samples of a polynomial of
degree below the sample count returns the polynomial's constant term. -/
theorem lagrangeZero_eq_coeff_zero (p : ℕ) [Fact p.Prime] (f : Polynomial (ZMod p))
    (S : List (ZMod p × ZMod p))
    (hnd : (S.map Prod.fst).Nodup)
    (hev : ∀ xy ∈ S, f.eval xy.1 = xy.2)
    (hdeg : f.degree < (S.length : ℕ)) :
    lagrangeZero p S = f.coeff 0 := by
  classical
  set v : Fin S.length → ZMod p := fun i => (S.get i).1 with hv
  have hinj : Function.Injective v := by
    intro i j hij
    have hi : (i : ℕ) < (S.map Prod.fst).length := by
      rw [List.length_map]
      exact i.2
    have hj : (j : ℕ) < (S.map Prod.fst).length := by
      rw [List.length_map]
      exact j.2
    have h1 : (S.map Prod.fst).get ⟨i, hi⟩ = (S.map Prod.fst).get ⟨j, hj⟩ := by
      rw [List.get_map, List.get_map]
      exact hij
    have h2 := hnd.get_inj_iff.mp h1
    have h3 : (i : ℕ) = (j : ℕ) := by
      have h4 := congrArg Fin.val h2
      simpa using h4
    exact Fin.ext h3
  have hvs : Set.InjOn v (Finset.univ : Finset (Fin S.length)) := hinj.injOn
  have hcard : (Finset.univ : Finset (Fin S.length)).card = S.length := by simp
  have hf : f = Lagrange.interpolate Finset.univ v fun i => f.eval (v i) :=
    Lagrange.eq_interpolate hvs (by rw [hcard]; exact hdeg)
  have h0 : f.coeff 0 = (Lagrange.interpolate Finset.univ v fun i => f.eval (v i)).eval 0 := by
    rw [Polynomial.coeff_zero_eq_eval_zero]
    exact congrArg (Polynomial.eval 0) hf
  rw [h0, Lagrange.interpolate_apply, Polynomial.eval_finset_sum, lagrangeZero]
  apply Finset.sum_congr rfl
  intro i _
  rw [Polynomial.eval_mul, Polynomial.eval_C]
  have hei : f.eval (v i) = (S.get i).2 := hev _ (S.get_mem i i.2)
  rw [hei]
  congr 1
  rw [Lagrange.basis, Polynomial.eval_prod]
  apply Finset.prod_congr rfl
  intro j hj
  have hji : v j ≠ v i := by
    intro h
    exact (Finset.mem_erase.mp hj).1 (hinj h)
  have hne : (S.get j).1 - (S.get i).1 ≠ 0 := sub_ne_zero.mpr hji
  rw [zinv_eq_inv p _ hne]
  rw [Lagrange.basisDivisor]
  rw [Polynomial.eval_mul, Polynomial.eval_C, Polynomial.eval_sub, Polynomial.eval_X,
    Polynomial.eval_C, zero_sub]
  rw [show v i - v j = -(v j - v i) by ring, inv_neg]
  ring

theorem nodup_fst_shamirShares (p : ℕ) [Fact p.Prime] (s : ZMod p)
    (coeffs : List (ZMod p)) (n : ℕ) (hnp : n < p) :
    ((shamirShares p s coeffs n).map Prod.fst).Nodup := by
  haveI : NeZero p := ⟨(Fact.out : p.Prime).ne_zero⟩
  have hmap : (shamirShares p s coeffs n).map Prod.fst
      = (List.range n).map fun i => ((i + 1 : ℕ) : ZMod p) := by
    rw [shamirShares, List.map_map]
    rfl
  rw [hmap]
  refine List.Nodup.map_on ?_ (List.nodup_range n)
  intro i hi j hj hij
  have hi2 : i + 1 < p := by
    have := List.mem_range.mp hi
    omega
  have hj2 : j + 1 < p := by
    have := List.mem_range.mp hj
    omega
  have hval := congrArg ZMod.val hij
  rw [ZMod.val_cast_of_lt hi2, ZMod.val_cast_of_lt hj2] at hval
  omega

theorem mem_shamirShares_eval (p : ℕ) (s : ZMod p) (coeffs : List (ZMod p)) (n : ℕ)
    (xy : ZMod p × ZMod p) (hxy : xy ∈ shamirShares p s coeffs n) :
    polyEvalL p (s :: coeffs) xy.1 = xy.2 := by
  rw [shamirShares, List.mem_map] at hxy
  obtain ⟨i, _, h⟩ := hxy
  rw [← h]

/-- Any sublist of the Shamir shares of size at least the coefficient count
plus one interpolates back to the shared secret. -/
theorem lagrangeZero_sublist_shamirShares (p : ℕ) [Fact p.Prime] (s : ZMod p)
    (coeffs : List (ZMod p)) (n : ℕ) (hnp : n < p)
    (S : List (ZMod p × ZMod p)) (hS : S.Sublist (shamirShares p s coeffs n))
    (hlen : coeffs.length + 1 ≤ S.length) :
    lagrangeZero p S = s := by
  have hnd : (S.map Prod.fst).Nodup :=
    ((hS.map Prod.fst)).nodup (nodup_fst_shamirShares p s coeffs n hnp)
  have hev : ∀ xy ∈ S, (listPoly p (s :: coeffs)).eval xy.1 = xy.2 := by
    intro xy hxy
    rw [eval_listPoly]
    exact mem_shamirShares_eval p s coeffs n xy (hS.subset hxy)
  have hdeg : (listPoly p (s :: coeffs)).degree < (S.length : ℕ) := by
    refine lt_of_lt_of_le (degree_listPoly_lt p (s :: coeffs)) ?_
    have hcons : (s :: coeffs).length = coeffs.length + 1 := rfl
    rw [hcons]
    exact_mod_cast hlen
  rw [lagrangeZero_eq_coeff_zero p (listPoly p (s :: coeffs)) S hnd hev hdeg]
  exact coeff_zero_listPoly p s coeffs

theorem map_pairOf_splitCore (p : ℕ) (s : ZMod p) (coeffs : List (ZMod p)) (n : ℕ) :
    (splitCore p (PrivateKey.full s) coeffs n).map (pairOf p)
      = shamirShares p s coeffs n := by
  rw [splitCore, List.map_map]
  have hcomp : (pairOf p ∘ fun xy : ZMod p × ZMod p => PrivateKey.fragment xy.1 xy.2)
      = id := by
    funext xy
    rfl
  rw [hcomp, List.map_id]
  rfl

theorem recoverCore_sublist_splitCore (p : ℕ) [Fact p.Prime] (s : ZMod p)
    (coeffs : List (ZMod p)) (n : ℕ) (hnp : n < p)
    (K : List (PrivateKey p)) (hK : K.Sublist (splitCore p (PrivateKey.full s) coeffs n))
    (hlen : coeffs.length + 1 ≤ K.length) :
    recoverCore p K = PrivateKey.full s := by
  rw [recoverCore]
  have hsub : (K.map (pairOf p)).Sublist (shamirShares p s coeffs n) := by
    have h := hK.map (pairOf p)
    rwa [map_pairOf_splitCore] at h
  have hlen2 : coeffs.length + 1 ≤ (K.map (pairOf p)).length := by
    rwa [List.length_map]
  rw [lagrangeZero_sublist_shamirShares p s coeffs n hnp _ hsub hlen2]

theorem g2FromCompressed_length (p : ℕ) (b : List ℕ) (mpt : G2 p)
    (h : g2FromCompressed p b = some mpt) : b.length = 96 := by
  by_cases hb : b.length = 96 ∧ bytesToNat b < p
  · exact hb.1
  · rw [g2FromCompressed, if_neg hb] at h
    exact Option.noConfusion h

theorem bindingVerify_decode (p : ℕ) (pk : G1 p) (b : List ℕ) (mpt sig : G2 p)
    (h : g2FromCompressed p b = some mpt) :
    bindingVerify p pk b sig =
      if pairing p (g1Gen p) sig = pairing p pk mpt then Outcome.ok true
      else Outcome.raised PyExc.invalidSignature := by
  have hlen := g2FromCompressed_length p b mpt h
  simp only [bindingVerify, verifyCore]
  rw [if_pos hlen, h]
  by_cases hc : pairing p (g1Gen p) sig = pairing p pk mpt
  · simp [hc]
  · simp [hc]

theorem bindingSign_decode (p : ℕ) (k : PrivateKey p) (b : List ℕ) (mpt : G2 p)
    (h : g2FromCompressed p b = some mpt) :
    bindingSign p k b = Outcome.ok (signCore p k mpt) := by
  have hlen := g2FromCompressed_length p b mpt h
  simp only [bindingSign]
  rw [if_pos hlen, h]

theorem lagrangeZero_singleton (p : ℕ) (xy : ZMod p × ZMod p) :
    lagrangeZero p [xy] = xy.2 := by
  rw [lagrangeZero]
  show (∑ i : Fin 1, ([xy].get i).2 * ∏ j ∈ Finset.univ.erase i,
      ([xy].get j).1 * zinv p (([xy].get j).1 - ([xy].get i).1)) = xy.2
  rw [Fin.sum_univ_one]
  have h3 : (Finset.univ.erase (0 : Fin 1)) = (∅ : Finset (Fin 1)) := by decide
  rw [h3, Finset.prod_empty, mul_one]
  rfl

/-! ## Claims -/

/-- C1: for every full private key `k` and every message buffer that decodes to
a valid compressed G2 point, verifying the signature produced by `k` over the
message against `k`'s derived public key returns success (`Ok(true)`), hence in
particular does not raise `InvalidSignature`. -/
theorem sign_verify_roundtrip (p : ℕ) (s : ZMod p) (b : List ℕ) (mpt : G2 p)
    (pk : G1 p) (sig : G2 p)
    (hm : g2FromCompressed p b = some mpt)
    (hpk : bindingPublicKey p (PrivateKey.full s) = Outcome.ok pk)
    (hsig : bindingSign p (PrivateKey.full s) b = Outcome.ok sig) :
    bindingVerify p pk b sig = Outcome.ok true := by
  have hpk2 : pk = s * g1Gen p := by
    have h : Outcome.ok (s * g1Gen p) = Outcome.ok pk := hpk
    exact (Outcome.ok.inj h).symm
  have hsig2 : sig = s * mpt := by
    rw [bindingSign_decode p (PrivateKey.full s) b mpt hm] at hsig
    exact (Outcome.ok.inj hsig).symm
  rw [bindingVerify_decode p pk b mpt sig hm, if_pos]
  rw [hpk2, hsig2, pairing, pairing, g1Gen]
  ring

/-- C1 witness: concrete instance at `p = 7`, key scalar `2`, message point
`3` (the 96-byte buffer `00…0003`). -/
theorem sign_verify_roundtrip_witness :
    bindingVerify 7 2 (List.replicate 95 0 ++ [3]) 6 = Outcome.ok true :=
  sign_verify_roundtrip 7 2 (List.replicate 95 0 ++ [3]) 3 2 6
    (by decide) (by decide) (by decide)

/-- C2: for every full key scalar `s`, parameters `1 ≤ m ≤ n` (with `n` below
the field order, as for the spec's `n ≤ 20` on the 255-bit BLS12-381 field),
and injected split randomness of the spec-mandated `m - 1` coefficients, any
two subsets of the `n` fragments of `split` of size at least `m` both recover a
key identical to the original (in particular with the same serialized bytes):
recovery does not depend on which qualifying subset is supplied. -/
theorem threshold_recover_subset_independent (p : ℕ) [Fact p.Prime]
    (s : ZMod p) (coeffs : List (ZMod p)) (m n : ℕ)
    (hco : coeffs.length = m - 1) (hm1 : 1 ≤ m) (hmn : m ≤ n) (hnp : n < p)
    (K1 K2 : List (PrivateKey p))
    (h1 : K1.Sublist (splitCore p (PrivateKey.full s) coeffs n)) (hl1 : m ≤ K1.length)
    (h2 : K2.Sublist (splitCore p (PrivateKey.full s) coeffs n)) (hl2 : m ≤ K2.length) :
    recoverCore p K1 = PrivateKey.full s ∧ recoverCore p K2 = PrivateKey.full s ∧
      privToBytes p (recoverCore p K1) = privToBytes p (recoverCore p K2) := by
  have hm : coeffs.length + 1 = m := by omega
  have hr1 : recoverCore p K1 = PrivateKey.full s :=
    recoverCore_sublist_splitCore p s coeffs n hnp K1 h1 (by omega)
  have hr2 : recoverCore p K2 = PrivateKey.full s :=
    recoverCore_sublist_splitCore p s coeffs n hnp K2 h2 (by omega)
  exact ⟨hr1, hr2, by rw [hr1, hr2]⟩

/-- C2 witness: a 2-of-3 split of the secret `5` over `ZMod 7` with tail
coefficient `2`; the subsets of fragments 1,2 and of fragments 2,3 both
recover `5`. -/
theorem threshold_recover_subset_independent_witness :
    recoverCore 7 [PrivateKey.fragment 1 0, PrivateKey.fragment 2 2]
        = PrivateKey.full 5 ∧
    recoverCore 7 [PrivateKey.fragment 2 2, PrivateKey.fragment 3 4]
        = PrivateKey.full 5 ∧
    privToBytes 7 (recoverCore 7 [PrivateKey.fragment 1 0, PrivateKey.fragment 2 2])
        = privToBytes 7 (recoverCore 7 [PrivateKey.fragment 2 2, PrivateKey.fragment 3 4]) :=
  threshold_recover_subset_independent 7 5 [2] 2 3
    (by decide) (by decide) (by decide) (by decide)
    [PrivateKey.fragment 1 0, PrivateKey.fragment 2 2] [PrivateKey.fragment 2 2, PrivateKey.fragment 3 4]
    (by decide) (by decide) (by decide) (by decide)

/-- C3 counterexample: at the identity message point (the valid all-zero
96-byte compressed encoding), the whole delegation pipeline of the claim ends
in a transformed signature that verifies successfully against Alice's original
public key as well, contradicting the claim's "does not verify against Alice's
original public key": with `p = 7`, Alice's scalar `2`, Bob's scalar `3`, the
designated public key is `6`, the re-signing key transforms the signature `0`
over the identity message into `0`, and verification against Alice's public
key `2` returns `Ok(true)`. -/
theorem resign_counterexample :
    bindingPublicKey 7 (PrivateKey.full 2) = Outcome.ok 2 ∧
    bindingPublicKey 7 (designatedKeyCore 7 (PrivateKey.full 3) 2) = Outcome.ok 6 ∧
    bindingSign 7 (PrivateKey.full 2) (List.replicate 96 0) = Outcome.ok 0 ∧
    bindingResign 7 (resigningKeyCore 7 (PrivateKey.full 2) 6) 0 = Outcome.ok 0 ∧
    bindingVerify 7 6 (List.replicate 96 0) 0 = Outcome.ok true ∧
    bindingVerify 7 2 (List.replicate 96 0) 0 = Outcome.ok true :=
  ⟨by decide, by decide, by decide, by decide, by decide, by decide⟩

/-- C3 (amended: the claim holds provided the message point is not the group
identity and the designated public key differs from Alice's public key): for
Alice's full key `a`, a designated key pair derived via `designated_key`
relative to Alice's public key, the re-signing key derived from Alice's key
and the designated public key, and Alice's signature over the message, the
transformed signature verifies against the designated public key and fails
against Alice's public key with a raised `InvalidSignature`. -/
theorem resign_moves_verification (p : ℕ) [Fact p.Prime] (a bKey : ZMod p)
    (alicePub dPub : G1 p) (dk rk : PrivateKey p) (b : List ℕ)
    (mpt sig sig2 : G2 p)
    (hpkA : bindingPublicKey p (PrivateKey.full a) = Outcome.ok alicePub)
    (hdk : dk = designatedKeyCore p (PrivateKey.full bKey) alicePub)
    (hdPub : bindingPublicKey p dk = Outcome.ok dPub)
    (hrk : rk = resigningKeyCore p (PrivateKey.full a) dPub)
    (hsig : signCore p (PrivateKey.full a) mpt = sig)
    (hsig2 : sig2 = resignCore p rk sig)
    (hm : g2FromCompressed p b = some mpt)
    (hm0 : mpt ≠ 0)
    (hne : dPub ≠ alicePub) :
    bindingVerify p dPub b sig2 = Outcome.ok true ∧
    bindingVerify p alicePub b sig2 = Outcome.raised PyExc.invalidSignature := by
  have hA : alicePub = a := by
    have h : Outcome.ok (a * g1Gen p) = Outcome.ok alicePub := hpkA
    have h2 := (Outcome.ok.inj h).symm
    rw [g1Gen, mul_one] at h2
    exact h2
  have hdk2 : dk = PrivateKey.full (bKey * alicePub) := by
    rw [hdk]
    rfl
  have hD : dPub = bKey * alicePub := by
    rw [hdk2] at hdPub
    have h : Outcome.ok (bKey * alicePub * g1Gen p) = Outcome.ok dPub := hdPub
    have h2 := (Outcome.ok.inj h).symm
    rw [g1Gen, mul_one] at h2
    exact h2
  have hsg : sig = a * mpt := by
    have h : a * mpt = sig := hsig
    exact h.symm
  have ha0 : a ≠ 0 := by
    intro h
    apply hne
    rw [hD, hA, h, mul_zero]
  have hsig2v : sig2 = dPub * mpt := by
    rw [hsig2, hrk, resignCore, resigningKeyCore, scalarOf, scalarOf,
      zinv_eq_inv p a ha0, hsg]
    field_simp
    ring
  constructor
  · rw [bindingVerify_decode p dPub b mpt sig2 hm, if_pos]
    rw [hsig2v, pairing, pairing, g1Gen, one_mul]
  · rw [bindingVerify_decode p alicePub b mpt sig2 hm, if_neg]
    intro h
    rw [hsig2v, pairing, pairing, g1Gen, one_mul] at h
    exact hne (mul_right_cancel₀ hm0 h)

/-- C3 amended witness: `p = 7`, Alice's scalar `2`, Bob's scalar `3`, message
point `3`: the transformed signature `4` verifies against the designated
public key `6` and is rejected against Alice's public key `2`. -/
theorem resign_moves_verification_witness :
    bindingVerify 7 6 (List.replicate 95 0 ++ [3]) 4 = Outcome.ok true ∧
    bindingVerify 7 2 (List.replicate 95 0 ++ [3]) 4
      = Outcome.raised PyExc.invalidSignature :=
  resign_moves_verification 7 2 3 2 6 (PrivateKey.full 6) (PrivateKey.full 3)
    (List.replicate 95 0 ++ [3]) 3 6 4
    (by decide) (by rfl) (by decide) (by decide) (by decide) (by decide)
    (by decide) (by decide) (by decide)

/-- C4: for every public key, signature, and message buffer that decodes to a
point, `PublicKey::verify` returns success exactly when the pairing equality
`e(G1_generator, signature) == e(publicKey, message)` holds, raises
`InvalidSignature` exactly when it does not, and never returns the boolean
`false`. -/
theorem verify_pairing_characterization (p : ℕ) (pk : G1 p) (b : List ℕ)
    (mpt sig : G2 p) (hm : g2FromCompressed p b = some mpt) :
    (bindingVerify p pk b sig = Outcome.ok true
        ↔ pairing p (g1Gen p) sig = pairing p pk mpt) ∧
    (bindingVerify p pk b sig = Outcome.raised PyExc.invalidSignature
        ↔ pairing p (g1Gen p) sig ≠ pairing p pk mpt) ∧
    bindingVerify p pk b sig ≠ Outcome.ok false := by
  rw [bindingVerify_decode p pk b mpt sig hm]
  by_cases hc : pairing p (g1Gen p) sig = pairing p pk mpt
  · simp [hc]
  · simp [hc]

/-- C4 witness: `p = 7`, public key `2`, message point `3`, and the invalid
signature `5` (the valid one is `6`). -/
theorem verify_pairing_characterization_witness :
    (bindingVerify 7 2 (List.replicate 95 0 ++ [3]) 5 = Outcome.ok true
        ↔ pairing 7 (g1Gen 7) 5 = pairing 7 2 3) ∧
    (bindingVerify 7 2 (List.replicate 95 0 ++ [3]) 5
          = Outcome.raised PyExc.invalidSignature
        ↔ pairing 7 (g1Gen 7) 5 ≠ pairing 7 2 3) ∧
    bindingVerify 7 2 (List.replicate 95 0 ++ [3]) 5 ≠ Outcome.ok false :=
  verify_pairing_characterization 7 2 (List.replicate 95 0 ++ [3]) 3 5 (by decide)

/-- C5 (code bug evaluation): `PublicKey::from_bytes` on buffers of length
other than 48 panics in `copy_from_slice` (aborting the process) instead of
failing with a `MalformedInput` error — shown at the empty buffer and at
lengths 47 and 49. -/
theorem pubFromBytes_wrong_length_aborts :
    bindingPubFromBytes 7 [] = Outcome.aborted ∧
    bindingPubFromBytes 7 (List.replicate 47 0) = Outcome.aborted ∧
    bindingPubFromBytes 7 (List.replicate 49 0) = Outcome.aborted := by
  refine ⟨by decide, by decide, by decide⟩

/-- C6 (code bug evaluation): the binding layer panics (aborts the process) on
attacker-controlled input instead of returning typed failures: `sign` and
`verify` panic in `copy_from_slice` on a message buffer of the wrong length
and in `.unwrap()` on a 96-byte buffer that is not a valid compressed G2
point, and `PublicKey::from_bytes` panics on a wrong-length buffer. -/
theorem binding_aborts_on_malformed_input :
    bindingSign 7 (PrivateKey.full 2) [] = Outcome.aborted ∧
    bindingVerify 7 2 [] 0 = Outcome.aborted ∧
    bindingSign 7 (PrivateKey.full 2) (List.replicate 96 255) = Outcome.aborted ∧
    bindingVerify 7 2 (List.replicate 96 255) 0 = Outcome.aborted ∧
    bindingPubFromBytes 7 [0] = Outcome.aborted := by
  refine ⟨by decide, by decide, by decide, by decide, by decide⟩

/-- C7 counterexample: `recover` called with fewer fragments than the split
threshold does not fail with `InsufficientShares` — it silently returns a
wrong key: recovering from one fragment of a 2-of-3 split of the secret `5`
over `ZMod 7` returns `Ok` with the key `0`; likewise a call with non-distinct
indices returns `Ok` rather than an error. -/
theorem recover_below_threshold_counterexample :
    bindingRecover 7 ((splitCore 7 (PrivateKey.full 5) [2] 3).take 1)
        = Outcome.ok (PrivateKey.full 0) ∧
    PrivateKey.full (p := 7) 0 ≠ PrivateKey.full 5 ∧
    bindingRecover 7 [PrivateKey.fragment 1 0, PrivateKey.fragment 1 0]
        = Outcome.ok (PrivateKey.full 0) := by
  refine ⟨by decide, by decide, by decide⟩

/-- C7 (amended: `recover` receives no threshold information — neither a
parameter nor a field of the 64-byte fragments — and its type is infallible,
so a call with fewer than `m` fragments silently returns the interpolation of
the supplied shares, a key that differs from the original whenever the split
polynomial is non-constant): recovering from the first fragment alone of a
2-of-3 split with tail coefficient `c ≠ 0` returns `Ok` with the wrong key
`s + c`. -/
theorem recover_below_threshold_silent (p : ℕ) (s c : ZMod p) (hc : c ≠ 0) :
    bindingRecover p ((splitCore p (PrivateKey.full s) [c] 3).take 1)
        = Outcome.ok (PrivateKey.full (s + c)) ∧
    PrivateKey.full (p := p) (s + c) ≠ PrivateKey.full s := by
  constructor
  · have h1 : ((splitCore p (PrivateKey.full s) [c] 3).take 1).map (pairOf p)
        = [(((1 : ℕ) : ZMod p), polyEvalL p [s, c] ((1 : ℕ) : ZMod p))] := rfl
    rw [bindingRecover, recoverCore, h1, lagrangeZero_singleton]
    have h2 : polyEvalL p [s, c] ((1 : ℕ) : ZMod p) = s + c := by
      rw [polyEvalL]
      show s + ((1 : ℕ) : ZMod p) * (c + ((1 : ℕ) : ZMod p) * 0) = s + c
      rw [Nat.cast_one, one_mul, mul_zero, add_zero]
    show Outcome.ok (PrivateKey.full (polyEvalL p [s, c] ((1 : ℕ) : ZMod p)))
        = Outcome.ok (PrivateKey.full (s + c))
    rw [h2]
  · intro h
    have h4 : s + c = s := PrivateKey.full.inj h
    exact hc (by rwa [add_right_eq_self] at h4)

/-- C7 amended witness: `p = 7`, secret `5`, tail coefficient `2`: the
single-fragment recovery silently returns the wrong key `5 + 2 = 0`. -/
theorem recover_below_threshold_silent_witness :
    bindingRecover 7 ((splitCore 7 (PrivateKey.full 5) [2] 3).take 1)
        = Outcome.ok (PrivateKey.full (5 + 2)) ∧
    PrivateKey.full (p := 7) (5 + 2) ≠ PrivateKey.full 5 :=
  recover_below_threshold_silent 7 5 2 (by decide)

/-- C8 counterexample: `public_key` and `sign` on a fragment do not fail with
a `NotASigningKey` error — `keys.rs` lines 30-34 and 37-43 wrap
type-level-infallible core calls unconditionally in `Ok` and import no such
error, so on the fragment with index 1 and share scalar 2 over `ZMod 7` both
return `Ok` with precisely the point derived from the fragment's scalar
(`2 · g1` and `2 · 3`), the behaviour the claim denies. -/
theorem fragment_signing_counterexample :
    isFragment 7 (PrivateKey.fragment 1 2) = true ∧
    bindingPublicKey 7 (PrivateKey.fragment 1 2) = Outcome.ok 2 ∧
    bindingPublicKey 7 (PrivateKey.fragment 1 2)
        ≠ Outcome.raised PyExc.notASigningKey ∧
    bindingSign 7 (PrivateKey.fragment 1 2) (List.replicate 95 0 ++ [3])
        = Outcome.ok 6 ∧
    bindingSign 7 (PrivateKey.fragment 1 2) (List.replicate 95 0 ++ [3])
        ≠ Outcome.raised PyExc.notASigningKey :=
  ⟨by decide, by decide, by decide, by decide, by decide⟩

/-- C8 (amended: the binding can never surface a `NotASigningKey` error): for
every fragment, `public_key` and `sign` return `Ok` with the point computed
from the fragment's share scalar — no typed failure is raised — so callers
must guard with the `is_fragment` capability query. -/
theorem fragment_signing_silent (p : ℕ) (x y : ZMod p) (b : List ℕ) (mpt : G2 p)
    (hm : g2FromCompressed p b = some mpt) :
    isFragment p (PrivateKey.fragment x y) = true ∧
    bindingPublicKey p (PrivateKey.fragment x y) = Outcome.ok (y * g1Gen p) ∧
    bindingSign p (PrivateKey.fragment x y) b = Outcome.ok (y * mpt) ∧
    bindingPublicKey p (PrivateKey.fragment x y)
        ≠ Outcome.raised PyExc.notASigningKey ∧
    bindingSign p (PrivateKey.fragment x y) b
        ≠ Outcome.raised PyExc.notASigningKey := by
  have hs : bindingSign p (PrivateKey.fragment x y) b = Outcome.ok (y * mpt) :=
    bindingSign_decode p (PrivateKey.fragment x y) b mpt hm
  refine ⟨rfl, rfl, hs, by exact Outcome.noConfusion, ?_⟩
  rw [hs]
  exact Outcome.noConfusion

/-- C8 amended witness: the fragment with index 1 and share scalar 2 over
`ZMod 7`, message point 3. -/
theorem fragment_signing_silent_witness :
    isFragment 7 (PrivateKey.fragment 1 2) = true ∧
    bindingPublicKey 7 (PrivateKey.fragment 1 2) = Outcome.ok (2 * g1Gen 7) ∧
    bindingSign 7 (PrivateKey.fragment 1 2) (List.replicate 95 0 ++ [3])
        = Outcome.ok (2 * 3) ∧
    bindingPublicKey 7 (PrivateKey.fragment 1 2)
        ≠ Outcome.raised PyExc.notASigningKey ∧
    bindingSign 7 (PrivateKey.fragment 1 2) (List.replicate 95 0 ++ [3])
        ≠ Outcome.raised PyExc.notASigningKey :=
  fragment_signing_silent 7 1 2 (List.replicate 95 0 ++ [3]) 3 (by decide)

theorem length_natToBytesBE (w n : ℕ) : (natToBytesBE w n).length = w := by
  induction w generalizing n with
  | zero => rfl
  | succ w ih =>
    rw [natToBytesBE, List.length_append, ih]
    rfl

/-- C9: serialization widths are fixed and variant-distinguishing — a full
private key serializes to exactly 32 bytes, a fragment to exactly 64 bytes (a
different length, so decoding can detect the variant), and a public key to
exactly 48 bytes. -/
theorem serialized_widths (p : ℕ) (s x y : ZMod p) (pk : G1 p) :
    (privToBytes p (PrivateKey.full s)).length = 32 ∧
    (privToBytes p (PrivateKey.fragment x y)).length = 64 ∧
    (pubToBytes p pk).length = 48 ∧
    (privToBytes p (PrivateKey.full s)).length
      ≠ (privToBytes p (PrivateKey.fragment x y)).length := by
  have h1 : (privToBytes p (PrivateKey.full s)).length = 32 := by
    rw [privToBytes, length_natToBytesBE]
  have h2 : (privToBytes p (PrivateKey.fragment x y)).length = 64 := by
    rw [privToBytes, List.length_append, length_natToBytesBE, length_natToBytesBE]
  have h3 : (pubToBytes p pk).length = 48 := by
    rw [pubToBytes, length_natToBytesBE]
  refine ⟨h1, h2, h3, ?_⟩
  rw [h1, h2]
  omega

/-- C10: `resign` is an unconditional transformation: for every re-signing key
and every signature — in particular one that does not verify under the given
public key, as the hypothesis states — the binding returns `Ok` with the
scaled signature, performing no validity check and raising no error. -/
theorem resign_unconditional (p : ℕ) (rk : PrivateKey p) (sig : G2 p)
    (pk : G1 p) (mpt : G2 p)
    (hinv : verifyCore p pk mpt sig = VerificationResult.invalid) :
    bindingResign p rk sig = Outcome.ok (resignCore p rk sig) := rfl

/-- C10 witness: over `ZMod 7` the signature `5` does not verify under public
key `2` and message point `3`, yet `resign` returns `Ok` with the transformed
signature. -/
theorem resign_unconditional_witness :
    bindingResign 7 (PrivateKey.full 3) 5
      = Outcome.ok (resignCore 7 (PrivateKey.full 3) 5) :=
  resign_unconditional 7 (PrivateKey.full 3) 5 2 3 (by decide)

end NuBLS
